import Mathlib

set_option maxHeartbeats 1000000

/-!
Verification of the ramp/job protocol of exopy_hqc_legacy.

The embedding models, over exact rationals:
* `SetDCVoltageTask.smooth_set` and `SetDCCurrentTask.smooth_set`
  (tasks/tasks/instr/dc_tasks.py), including Python's `round(x, ndigits)`
  (round half to even at a fixed decimal precision), the `should_stop`
  event (a Boolean stream consulted once per `is_set()` call) and the
  database writes;
* `ApplyMagFieldTask.perform` (tasks/tasks/instr/apply_mag_field_task.py);
* the CS4 driver's `sweep_to_field` / `stop_sweep` / `stop_sweep_safe`
  (instruments/drivers/visa/cryomagnetics_cs4.py).

The software loops are given explicit fuel since the source loops need not
terminate for every parameter choice; a run that exhausts its fuel is
flagged and excluded by hypothesis where a claim needs a finished run.
-/

/-- Round half to even, the rounding used by Python's built-in `round`. -/
def rhe (x : ℚ) : ℤ :=
  let f : ℤ := ⌊x⌋
  let r : ℚ := x - f
  if r < 1/2 then f
  else if 1/2 < r then f + 1
  else if f % 2 = 0 then f else f + 1

/-- Python's `round(x, p)` for `p ≥ 0` decimal digits, over exact rationals. -/
def roundTo (p : ℕ) (x : ℚ) : ℚ :=
  (rhe (x * 10 ^ p) : ℚ) / 10 ^ p

/-- `x` is an integer multiple of `10 ^ (-p)`. -/
def onGrid (p : ℕ) (x : ℚ) : Prop :=
  ∃ z : ℤ, x = (z : ℚ) / 10 ^ p

theorem rhe_intCast (z : ℤ) : rhe (z : ℚ) = z := by
  unfold rhe
  simp [Int.floor_intCast]

theorem roundTo_of_onGrid {p : ℕ} {x : ℚ} (h : onGrid p x) : roundTo p x = x := by
  obtain ⟨z, rfl⟩ := h
  have hp : (10 : ℚ) ^ p ≠ 0 := by positivity
  unfold roundTo
  rw [div_mul_cancel₀ _ hp, rhe_intCast]

theorem onGrid_add {p : ℕ} {x y : ℚ} (hx : onGrid p x) (hy : onGrid p y) :
    onGrid p (x + y) := by
  obtain ⟨a, rfl⟩ := hx
  obtain ⟨b, rfl⟩ := hy
  exact ⟨a + b, by push_cast; ring⟩

theorem onGrid_neg {p : ℕ} {x : ℚ} (hx : onGrid p x) : onGrid p (-x) := by
  obtain ⟨a, rfl⟩ := hx
  exact ⟨-a, by push_cast; ring⟩

/-- How the stepping `while` loop of `smooth_set` was left. -/
inductive LoopExit where
  | stopped
  | broke
  | fuelOut
deriving DecidableEq, Repr

/-- Observable outcome of the stepping `while` loop of `smooth_set`:
the values passed to `setter`, the final `last_value`, the number of
`should_stop.is_set()` calls made so far, and how the loop exited. -/
structure LoopRes where
  calls : List ℚ
  last : ℚ
  tick : ℕ
  exit : LoopExit
deriving DecidableEq, Repr

/-- The `while not self.root.should_stop.is_set():` loop of `smooth_set`
(dc_tasks.py lines 168-175 / 312-319).  Each iteration checks the stop
event, rounds `last_value + step` to `p` decimals, calls `setter`, and
breaks once `abs(value - last_value) <= abs(step)`.  `stop k` is the value
returned by the `k`-th `is_set()` call of the run. -/
def rampLoop (stop : ℕ → Bool) (p : ℕ) (value step : ℚ) :
    ℕ → ℚ → ℕ → LoopRes
  | 0, last, k =>
    if stop k then ⟨[], last, k + 1, LoopExit.stopped⟩
    else ⟨[], last, k, LoopExit.fuelOut⟩
  | fuel + 1, last, k =>
    if stop k then ⟨[], last, k + 1, LoopExit.stopped⟩
    else
      let l' := roundTo p (last + step)
      if |value - l'| > |step| then
        let r := rampLoop stop p value step fuel l' (k + 1)
        ⟨l' :: r.calls, r.last, r.tick, r.exit⟩
      else ⟨[l'], l', k + 1, LoopExit.broke⟩

/-- Observable outcome of one `smooth_set` call: the values passed to
`setter` in order, the values written to the task database entry, whether
a `ValueError` was raised, whether the final `setter(value)` branch ran,
whether the model ran out of fuel, and whether a division by zero was
reached (never, see claim C9). -/
structure RunResult where
  calls : List ℚ
  dbWrites : List ℚ
  raised : Bool
  completed : Bool
  fuelOut : Bool
  divZero : Bool
deriving DecidableEq, Repr

def raisedResult : RunResult := ⟨[], [], true, false, false, false⟩

/-- Division guarded against a zero denominator, used to observe that the
source division `(value - last_value)/self.back_step` never divides by 0. -/
def checkedDiv (a b : ℚ) : Option ℚ :=
  if b = 0 then none else some (a / b)

/-- The step chosen by `smooth_set`: `back_step` if `(value - last)/back_step`
is positive, `-back_step` otherwise (dc_tasks.py lines 162-165 / 306-309);
`q` stands for the already computed quotient. -/
def stepOf (bs q : ℚ) : ℚ :=
  if 0 < q then bs else -bs

/-- The guarded stepping phase of `smooth_set`: the `while` loop runs only
when `abs(value - last_value) > abs(step)` (dc_tasks.py line 167 / 311);
otherwise no iteration happens and no stop check is consumed. -/
def loopRun (stop : ℕ → Bool) (p : ℕ) (value step : ℚ) (fuel : ℕ)
    (current : ℚ) : LoopRes :=
  if |value - current| > |step| then rampLoop stop p value step fuel current 0
  else ⟨[], current, 0, LoopExit.broke⟩

/-- The tail of `smooth_set` after the stepping phase (dc_tasks.py lines
177-182 / 321-326): one more `is_set()` check decides between the final
`setter(value)` plus database write of `value`, and a database write of
`last_value` alone. -/
def finishRun (value : ℚ) (stop : ℕ → Bool) (r : LoopRes) : RunResult :=
  if r.exit = LoopExit.fuelOut then ⟨r.calls, [], false, false, true, false⟩
  else if stop r.tick then ⟨r.calls, [r.last], false, false, false, false⟩
  else ⟨r.calls ++ [value], [value], false, true, false, false⟩

/-- Common body of both `smooth_set` methods after their validation
checks (dc_tasks.py lines 150-182 and 294-326): `bs` is `back_step`,
`p` the decimal precision of the `round` call (9 for voltage, 6 for
current), `eps` the dead-band (1e-12 for voltage, 1e-9 for current). -/
def smoothCore (bs : ℚ) (p : ℕ) (eps : ℚ) (stop : ℕ → Bool) (fuel : ℕ)
    (value current : ℚ) : RunResult :=
  if |current - value| < eps then ⟨[], [value], false, true, false, false⟩
  else if bs = 0 then ⟨[value], [value], false, true, false, false⟩
  else
    match checkedDiv (value - current) bs with
    | none => ⟨[], [], false, false, false, true⟩
    | some q =>
      finishRun value stop (loopRun stop p value (stepOf bs q) fuel current)

/-- `SetDCVoltageTask.smooth_set` (dc_tasks.py lines 123-182): validates
`safe_delta` then `safe_max` (Python truthiness: a check is active iff the
attribute is nonzero), then runs the stepping body with `round(_, 9)` and
dead-band `1e-12`. -/
def SetDCVoltageTask.smooth_set (back_step safe_max safe_delta : ℚ)
    (stop : ℕ → Bool) (fuel : ℕ) (target_value current_value : ℚ) : RunResult :=
  if safe_delta ≠ 0 ∧ |current_value - target_value| > safe_delta then raisedResult
  else if safe_max ≠ 0 ∧ safe_max < |target_value| then raisedResult
  else smoothCore back_step 9 (1 / 10 ^ 12) stop fuel target_value current_value

/-- `SetDCCurrentTask.smooth_set` (dc_tasks.py lines 274-326): validates
only `safe_max` (the current task has no `safe_delta` attribute), then
runs the stepping body with `round(_, 6)` and dead-band `1e-9`. -/
def SetDCCurrentTask.smooth_set (back_step safe_max : ℚ)
    (stop : ℕ → Bool) (fuel : ℕ) (target_value current_value : ℚ) : RunResult :=
  if safe_max ≠ 0 ∧ safe_max < |target_value| then raisedResult
  else smoothCore back_step 6 (1 / 10 ^ 9) stop fuel target_value current_value

-- Sanity checks on concrete runs (spec scenario: 0 → 5 with step 1).
example :
    (SetDCVoltageTask.smooth_set 1 0 0 (fun _ => false) 10 5 0).calls
      = [1, 2, 3, 4, 5] := by
  norm_num +decide [SetDCVoltageTask.smooth_set, smoothCore, checkedDiv,
    stepOf, loopRun, finishRun, rampLoop, roundTo, rhe, abs_div, abs_neg]

example :
    (SetDCVoltageTask.smooth_set (17/10^10) 0 0 (fun _ => false) 10
      (7/(4 * 10^9)) 0).calls = [2/10^9, 7/(4 * 10^9)] := by
  norm_num +decide [SetDCVoltageTask.smooth_set, smoothCore, checkedDiv,
    stepOf, loopRun, finishRun, rampLoop, roundTo, rhe, abs_div, abs_neg]

/-! ### Structural lemmas about the stepping loop -/

theorem rampLoop_last_getLastD (stop : ℕ → Bool) (p : ℕ) (value step : ℚ) :
    ∀ (fuel : ℕ) (last : ℚ) (k : ℕ),
      (rampLoop stop p value step fuel last k).last
        = (rampLoop stop p value step fuel last k).calls.getLastD last := by
  intro fuel
  induction fuel with
  | zero =>
    intro last k
    by_cases hs : stop k <;> simp [rampLoop, hs]
  | succ fuel ih =>
    intro last k
    by_cases hs : stop k
    · simp [rampLoop, hs]
    · by_cases h2 : |value - roundTo p (last + step)| > |step|
      · simp only [rampLoop, hs, Bool.false_eq_true, if_false, h2, if_true]
        rw [List.getLastD_cons]
        exact ih _ _
      · simp [rampLoop, hs, h2]

theorem rampLoop_broke_last (stop : ℕ → Bool) (p : ℕ) (value step : ℚ) :
    ∀ (fuel : ℕ) (last : ℚ) (k : ℕ),
      (rampLoop stop p value step fuel last k).exit = LoopExit.broke →
        ¬ |value - (rampLoop stop p value step fuel last k).last| > |step| := by
  intro fuel
  induction fuel with
  | zero =>
    intro last k h
    by_cases hs : stop k <;> simp [rampLoop, hs] at h
  | succ fuel ih =>
    intro last k
    by_cases hs : stop k
    · simp [rampLoop, hs]
    · by_cases h2 : |value - roundTo p (last + step)| > |step|
      · intro h
        simp only [rampLoop, hs] at h ⊢
        simp only [Bool.false_eq_true, if_false, h2, if_true] at h ⊢
        exact ih _ _ h
      · intro _
        simp [rampLoop, hs, h2]

theorem rampLoop_stopped_tick (stop : ℕ → Bool) (p : ℕ) (value step : ℚ) :
    ∀ (fuel : ℕ) (last : ℚ) (k : ℕ),
      (rampLoop stop p value step fuel last k).exit = LoopExit.stopped →
      ∃ j, (rampLoop stop p value step fuel last k).tick = j + 1 ∧
        stop j = true := by
  intro fuel
  induction fuel with
  | zero =>
    intro last k h
    by_cases hs : stop k
    · exact ⟨k, by simp [rampLoop, hs], hs⟩
    · simp [rampLoop, hs] at h
  | succ fuel ih =>
    intro last k
    by_cases hs : stop k
    · exact fun _ => ⟨k, by simp [rampLoop, hs], hs⟩
    · by_cases h2 : |value - roundTo p (last + step)| > |step|
      · intro h
        simp only [rampLoop, hs] at h ⊢
        simp only [Bool.false_eq_true, if_false, h2, if_true] at h ⊢
        exact ih _ _ h
      · intro h
        simp [rampLoop, hs, h2] at h

theorem rampLoop_chain_grid (stop : ℕ → Bool) (p : ℕ) (value step : ℚ)
    (hgs : onGrid p step) :
    ∀ (fuel : ℕ) (last : ℚ) (k : ℕ), onGrid p last →
      List.Chain' (fun a b => b = a + step)
        (last :: (rampLoop stop p value step fuel last k).calls) := by
  intro fuel
  induction fuel with
  | zero =>
    intro last k _
    by_cases hs : stop k <;> simp [rampLoop, hs]
  | succ fuel ih =>
    intro last k hgl
    have hg2 : onGrid p (last + step) := onGrid_add hgl hgs
    have hround : roundTo p (last + step) = last + step :=
      roundTo_of_onGrid hg2
    by_cases hs : stop k
    · simp [rampLoop, hs]
    · by_cases h2 : |value - roundTo p (last + step)| > |step|
      · simp only [rampLoop, hs, Bool.false_eq_true, if_false, h2, if_true]
        exact List.chain'_cons.mpr
          ⟨hround, ih _ _ (by rw [hround]; exact hg2)⟩
      · simp only [rampLoop, hs, Bool.false_eq_true, if_false, h2, if_true]
        exact List.chain'_pair.mpr hround

/-- One exact step of the loop moves in the direction of `step`, strictly
reduces the distance to `value`, and does not move backwards. -/
theorem step_advance {value last step : ℚ} (hdir : 0 < (value - last) * step)
    (hgap : |step| < |value - last|) :
    0 < (value - (last + step)) * step ∧
    |value - (last + step)| < |value - last| ∧
    0 ≤ (last + step - last) * step := by
  have hstep : step ≠ 0 := by
    rintro rfl
    simp at hdir
  rcases hstep.lt_or_lt with hneg | hpos
  · have hvl : value - last < 0 := by
      rcases mul_pos_iff.mp hdir with ⟨h1, h2⟩ | ⟨h1, h2⟩
      · exact absurd h2 (not_lt.mpr hneg.le)
      · exact h1
    rw [abs_of_neg hvl, abs_of_neg hneg] at hgap
    have hvl' : value - (last + step) < 0 := by linarith
    refine ⟨mul_pos_of_neg_of_neg hvl' hneg, ?_, ?_⟩
    · rw [abs_of_neg hvl', abs_of_neg hvl]
      linarith
    · have : last + step - last = step := by ring
      rw [this]
      exact mul_self_nonneg step
  · have hvl : 0 < value - last := by
      rcases mul_pos_iff.mp hdir with ⟨h1, h2⟩ | ⟨h1, h2⟩
      · exact h1
      · exact absurd h2 (not_lt.mpr hpos.le)
    rw [abs_of_pos hvl, abs_of_pos hpos] at hgap
    have hvl' : 0 < value - (last + step) := by linarith
    refine ⟨mul_pos hvl' hpos, ?_, ?_⟩
    · rw [abs_of_pos hvl', abs_of_pos hvl]
      linarith
    · have : last + step - last = step := by ring
      rw [this]
      exact mul_self_nonneg step

/-- Main invariant of the stepping loop when the stop signal is never set
and the starting value and the step are on the rounding grid: the loop can
only end by running out of fuel or by the `break`, every value passed to
`setter` lies on the segment from the starting value towards `value`, and
the distance to `value` never increases along the calls. -/
theorem rampLoop_noStop (stop : ℕ → Bool) (p : ℕ) (value step : ℚ)
    (hstop : ∀ n, stop n = false) (hgs : onGrid p step) :
    ∀ (fuel : ℕ) (last : ℚ) (k : ℕ), onGrid p last →
      0 < (value - last) * step → |step| < |value - last| →
      (rampLoop stop p value step fuel last k).exit = LoopExit.fuelOut ∨
      ((rampLoop stop p value step fuel last k).exit = LoopExit.broke ∧
        List.Chain' (fun a b => |value - b| ≤ |value - a|)
          (last :: (rampLoop stop p value step fuel last k).calls) ∧
        ∀ x ∈ (rampLoop stop p value step fuel last k).calls,
          0 ≤ (x - last) * step ∧ 0 ≤ (value - x) * step) := by
  intro fuel
  induction fuel with
  | zero =>
    intro last k _ _ _
    simp [rampLoop, hstop k]
  | succ fuel ih =>
    intro last k hgl hdir hgap
    have hg2 : onGrid p (last + step) := onGrid_add hgl hgs
    have hround : roundTo p (last + step) = last + step :=
      roundTo_of_onGrid hg2
    obtain ⟨hdir', hdist, hfwd⟩ := step_advance hdir hgap
    by_cases h2 : |value - roundTo p (last + step)| > |step|
    · have hgap' : |step| < |value - (last + step)| := by rwa [hround] at h2
      have hrec := ih (roundTo p (last + step)) (k + 1) (by rw [hround]; exact hg2)
        (by rw [hround]; exact hdir') (by rwa [hround])
      simp only [rampLoop, hstop k, Bool.false_eq_true, if_false, h2, if_true]
      rcases hrec with hfo | ⟨hbr, hchain, helem⟩
      · exact Or.inl hfo
      · refine Or.inr ⟨hbr, ?_, ?_⟩
        · refine List.chain'_cons.mpr ⟨?_, hchain⟩
          rw [hround]
          exact hdist.le
        · intro x hx
          rcases List.mem_cons.mp hx with rfl | hx'
          · rw [hround]
            exact ⟨hfwd, hdir'.le⟩
          · obtain ⟨e1, e2⟩ := helem x hx'
            rw [hround] at e1
            constructor
            · have : (x - last) * step
                  = (x - (last + step)) * step + (last + step - last) * step := by
                ring
              rw [this]
              exact add_nonneg e1 hfwd
            · exact e2
    · simp only [rampLoop, hstop k, Bool.false_eq_true, if_false, h2, if_false]
      refine Or.inr ⟨by trivial, ?_, ?_⟩
      · exact List.chain'_pair.mpr (by rw [hround]; exact hdist.le)
      · intro x hx
        rcases List.mem_singleton.mp hx with rfl
        rw [hround]
        exact ⟨hfwd, hdir'.le⟩

/-! ### Lemmas about the guarded stepping phase and the chosen step -/

theorem loopRun_last_getLastD (stop : ℕ → Bool) (p : ℕ) (value step : ℚ)
    (fuel : ℕ) (current : ℚ) :
    (loopRun stop p value step fuel current).last
      = (loopRun stop p value step fuel current).calls.getLastD current := by
  unfold loopRun
  by_cases h : |value - current| > |step|
  · rw [if_pos h]
    exact rampLoop_last_getLastD stop p value step fuel current 0
  · rw [if_neg h]
    rfl

theorem loopRun_broke_last (stop : ℕ → Bool) (p : ℕ) (value step : ℚ)
    (fuel : ℕ) (current : ℚ)
    (h : (loopRun stop p value step fuel current).exit = LoopExit.broke) :
    ¬ |value - (loopRun stop p value step fuel current).last| > |step| := by
  unfold loopRun at h ⊢
  by_cases hg : |value - current| > |step|
  · rw [if_pos hg] at h ⊢
    exact rampLoop_broke_last stop p value step fuel current 0 h
  · rw [if_neg hg]
    exact hg

theorem loopRun_stopped_tick (stop : ℕ → Bool) (p : ℕ) (value step : ℚ)
    (fuel : ℕ) (current : ℚ)
    (h : (loopRun stop p value step fuel current).exit = LoopExit.stopped) :
    ∃ j, (loopRun stop p value step fuel current).tick = j + 1 ∧
      stop j = true := by
  unfold loopRun at h ⊢
  by_cases hg : |value - current| > |step|
  · rw [if_pos hg] at h ⊢
    exact rampLoop_stopped_tick stop p value step fuel current 0 h
  · rw [if_neg hg] at h
    simp at h

theorem loopRun_chain_grid (stop : ℕ → Bool) (p : ℕ) (value step : ℚ)
    (fuel : ℕ) (current : ℚ) (hgs : onGrid p step) (hgc : onGrid p current) :
    List.Chain' (fun a b => b = a + step)
      (current :: (loopRun stop p value step fuel current).calls) := by
  unfold loopRun
  by_cases hg : |value - current| > |step|
  · rw [if_pos hg]
    exact rampLoop_chain_grid stop p value step hgs fuel current 0 hgc
  · rw [if_neg hg]
    simp

theorem loopRun_noStop (stop : ℕ → Bool) (p : ℕ) (value step : ℚ)
    (fuel : ℕ) (current : ℚ) (hstop : ∀ n, stop n = false)
    (hgs : onGrid p step) (hgc : onGrid p current)
    (hdir : 0 < (value - current) * step) :
    (loopRun stop p value step fuel current).exit = LoopExit.fuelOut ∨
    ((loopRun stop p value step fuel current).exit = LoopExit.broke ∧
      List.Chain' (fun a b => |value - b| ≤ |value - a|)
        (current :: (loopRun stop p value step fuel current).calls) ∧
      ∀ x ∈ (loopRun stop p value step fuel current).calls,
        0 ≤ (x - current) * step ∧ 0 ≤ (value - x) * step) := by
  unfold loopRun
  by_cases hg : |value - current| > |step|
  · rw [if_pos hg]
    exact rampLoop_noStop stop p value step hstop hgs fuel current 0 hgc hdir hg
  · rw [if_neg hg]
    exact Or.inr ⟨rfl, by simp, by simp⟩

theorem stepOf_dir {t c bs : ℚ} (hbs : bs ≠ 0) (hne : t ≠ c) :
    0 < (t - c) * stepOf bs ((t - c) / bs) := by
  have htc : t - c ≠ 0 := sub_ne_zero.mpr hne
  unfold stepOf
  by_cases h : 0 < (t - c) / bs
  · rw [if_pos h]
    rcases div_pos_iff.mp h with ⟨h1, h2⟩ | ⟨h1, h2⟩
    · exact mul_pos h1 h2
    · exact mul_pos_of_neg_of_neg h1 h2
  · rw [if_neg h]
    have hlt : (t - c) / bs < 0 :=
      lt_of_le_of_ne (not_lt.mp h) (div_ne_zero htc hbs)
    rcases div_neg_iff.mp hlt with ⟨h1, h2⟩ | ⟨h1, h2⟩
    · exact mul_pos h1 (neg_pos.mpr h2)
    · exact mul_pos_of_neg_of_neg h1 (neg_lt_zero.mpr h2)

theorem stepOf_abs (bs q : ℚ) : |stepOf bs q| = |bs| := by
  unfold stepOf
  by_cases h : 0 < q
  · rw [if_pos h]
  · rw [if_neg h, abs_neg]

theorem stepOf_onGrid {p : ℕ} {bs : ℚ} (q : ℚ) (h : onGrid p bs) :
    onGrid p (stepOf bs q) := by
  unfold stepOf
  by_cases hq : 0 < q
  · rwa [if_pos hq]
  · rw [if_neg hq]
    exact onGrid_neg h

/-- With both validation-free branches excluded, `smoothCore` is the
stepping phase followed by the finishing checks. -/
theorem smoothCore_eq (bs : ℚ) (p : ℕ) (eps : ℚ) (stop : ℕ → Bool)
    (fuel : ℕ) (value current : ℚ)
    (heps : ¬ |current - value| < eps) (hbs : bs ≠ 0) :
    smoothCore bs p eps stop fuel value current
      = finishRun value stop
          (loopRun stop p value (stepOf bs ((value - current) / bs)) fuel
            current) := by
  rw [smoothCore, if_neg heps, if_neg hbs]
  rw [checkedDiv, if_neg hbs]

/-- When the voltage `smooth_set` does not raise, it reduces to the common
stepping body. -/
theorem smooth_set_voltage_eq_core (bs sm sd : ℚ) (stop : ℕ → Bool)
    (fuel : ℕ) (t c : ℚ)
    (hr : (SetDCVoltageTask.smooth_set bs sm sd stop fuel t c).raised = false) :
    SetDCVoltageTask.smooth_set bs sm sd stop fuel t c
      = smoothCore bs 9 (1 / 10 ^ 12) stop fuel t c := by
  unfold SetDCVoltageTask.smooth_set at hr ⊢
  split_ifs at hr ⊢ with h1 h2
  · simp [raisedResult] at hr
  · simp [raisedResult] at hr
  · rfl

/-- When the current `smooth_set` does not raise, it reduces to the common
stepping body. -/
theorem smooth_set_current_eq_core (bs sm : ℚ) (stop : ℕ → Bool)
    (fuel : ℕ) (t c : ℚ)
    (hr : (SetDCCurrentTask.smooth_set bs sm stop fuel t c).raised = false) :
    SetDCCurrentTask.smooth_set bs sm stop fuel t c
      = smoothCore bs 6 (1 / 10 ^ 9) stop fuel t c := by
  unfold SetDCCurrentTask.smooth_set at hr ⊢
  split_ifs at hr ⊢ with h1
  · simp [raisedResult] at hr
  · rfl

/-- A point that moved from `c` in the direction of `step` without passing
`t` (both expressed as sign conditions against `step`) lies between `c`
and `t`. -/
theorem between_of_facts {c t x step : ℚ} (hdir : 0 < (t - c) * step)
    (h1 : 0 ≤ (x - c) * step) (h2 : 0 ≤ (t - x) * step) :
    min c t ≤ x ∧ x ≤ max c t := by
  have hstep : step ≠ 0 := by
    rintro rfl
    simp at hdir
  rcases hstep.lt_or_lt with hneg | hpos
  · have hx1 : x ≤ c := by
      by_contra hgt
      push_neg at hgt
      have := mul_neg_of_pos_of_neg (sub_pos.mpr hgt) hneg
      linarith
    have hx2 : t ≤ x := by
      by_contra hgt
      push_neg at hgt
      have := mul_neg_of_pos_of_neg (sub_pos.mpr hgt) hneg
      linarith
    exact ⟨le_trans (min_le_right c t) hx2, le_trans hx1 (le_max_left c t)⟩
  · have hx1 : c ≤ x := by
      by_contra hgt
      push_neg at hgt
      have := mul_neg_of_neg_of_pos (sub_neg.mpr hgt) hpos
      linarith
    have hx2 : x ≤ t := by
      by_contra hgt
      push_neg at hgt
      have := mul_neg_of_neg_of_pos (sub_neg.mpr hgt) hpos
      linarith
    exact ⟨le_trans (min_le_left c t) hx1, le_trans hx2 (le_max_right c t)⟩

theorem getLast?_cons_getLastD {α : Type} (a : α) (l : List α) :
    (a :: l).getLast? = some (l.getLastD a) := by
  induction l generalizing a with
  | nil => rfl
  | cons b l ih => rw [List.getLast?_cons_cons, ih b, List.getLastD_cons]

theorem smoothCore_divZero (bs : ℚ) (p : ℕ) (eps : ℚ) (stop : ℕ → Bool)
    (fuel : ℕ) (value current : ℚ) :
    (smoothCore bs p eps stop fuel value current).divZero = false := by
  unfold smoothCore
  split_ifs with h1 h2
  · rfl
  · rfl
  · rw [checkedDiv, if_neg h2]
    show (finishRun value stop
      (loopRun stop p value (stepOf bs ((value - current) / bs)) fuel
        current)).divZero = false
    unfold finishRun
    split_ifs <;> rfl

/-! ### Claim theorems -/

/-- Claim C2 (confirmed): for both `smooth_set` variants, a nonzero
`safe_max` together with `safe_max < |target_value|` makes the call raise a
`ValueError` with zero setter calls and zero database writes. -/
theorem C2_safe_max_rejects_before_any_write
    (bs sm sd : ℚ) (stop : ℕ → Bool) (fuel : ℕ) (t c : ℚ)
    (hsm : sm ≠ 0) (ht : sm < |t|) :
    ((SetDCVoltageTask.smooth_set bs sm sd stop fuel t c).raised = true ∧
     (SetDCVoltageTask.smooth_set bs sm sd stop fuel t c).calls = [] ∧
     (SetDCVoltageTask.smooth_set bs sm sd stop fuel t c).dbWrites = []) ∧
    ((SetDCCurrentTask.smooth_set bs sm stop fuel t c).raised = true ∧
     (SetDCCurrentTask.smooth_set bs sm stop fuel t c).calls = [] ∧
     (SetDCCurrentTask.smooth_set bs sm stop fuel t c).dbWrites = []) := by
  constructor
  · unfold SetDCVoltageTask.smooth_set
    split_ifs with h1 h2
    · exact ⟨rfl, rfl, rfl⟩
    · exact ⟨rfl, rfl, rfl⟩
    · exact absurd ⟨hsm, ht⟩ h2
  · unfold SetDCCurrentTask.smooth_set
    split_ifs with h1
    · exact ⟨rfl, rfl, rfl⟩
    · exact absurd ⟨hsm, ht⟩ h1

theorem C2_witness :
    (1 : ℚ) ≠ 0 ∧ (1 : ℚ) < |(2 : ℚ)| ∧
    ((SetDCVoltageTask.smooth_set 0 1 0 (fun _ => false) 5 2 0).raised = true ∧
     (SetDCVoltageTask.smooth_set 0 1 0 (fun _ => false) 5 2 0).calls = [] ∧
     (SetDCVoltageTask.smooth_set 0 1 0 (fun _ => false) 5 2 0).dbWrites = []) ∧
    ((SetDCCurrentTask.smooth_set 0 1 (fun _ => false) 5 2 0).raised = true ∧
     (SetDCCurrentTask.smooth_set 0 1 (fun _ => false) 5 2 0).calls = [] ∧
     (SetDCCurrentTask.smooth_set 0 1 (fun _ => false) 5 2 0).dbWrites = []) := by
  refine ⟨by norm_num, by norm_num [abs_of_nonneg], ?_⟩
  exact C2_safe_max_rejects_before_any_write 0 1 0 (fun _ => false) 5 2 0
    (by norm_num) (by norm_num [abs_of_nonneg])

/-- Claim C9 (confirmed): the division `(value - last_value)/back_step` in
`smooth_set` is only reached on the branch where `back_step` is nonzero
(the `back_step == 0` case returned earlier), so no run of either variant
ever divides by zero. -/
theorem C9_no_division_by_zero_reachable
    (bs sm sd : ℚ) (stop : ℕ → Bool) (fuel : ℕ) (t c : ℚ) :
    (SetDCVoltageTask.smooth_set bs sm sd stop fuel t c).divZero = false ∧
    (SetDCCurrentTask.smooth_set bs sm stop fuel t c).divZero = false := by
  constructor
  · unfold SetDCVoltageTask.smooth_set
    split_ifs
    · rfl
    · rfl
    · exact smoothCore_divZero bs 9 (1 / 10 ^ 12) stop fuel t c
  · unfold SetDCCurrentTask.smooth_set
    split_ifs
    · rfl
    · exact smoothCore_divZero bs 6 (1 / 10 ^ 9) stop fuel t c

/-- Claim C6 (amended): the `safe_delta` (max-delta-from-current) check
exists only in the voltage variant, where a nonzero `safe_delta` with
`|current - target| > safe_delta` raises before any setter call or
database write.  The current variant has no such attribute and performs no
such check (see the counterexample). -/
theorem C6_safe_delta_rejects_voltage_only
    (bs sm sd : ℚ) (stop : ℕ → Bool) (fuel : ℕ) (t c : ℚ)
    (hsd : sd ≠ 0) (hd : |c - t| > sd) :
    (SetDCVoltageTask.smooth_set bs sm sd stop fuel t c).raised = true ∧
    (SetDCVoltageTask.smooth_set bs sm sd stop fuel t c).calls = [] ∧
    (SetDCVoltageTask.smooth_set bs sm sd stop fuel t c).dbWrites = [] := by
  unfold SetDCVoltageTask.smooth_set
  rw [if_pos ⟨hsd, hd⟩]
  exact ⟨rfl, rfl, rfl⟩

theorem C6_witness :
    (1 : ℚ) ≠ 0 ∧ |(0 : ℚ) - 5| > 1 ∧
    (SetDCVoltageTask.smooth_set 1 0 1 (fun _ => false) 9 5 0).raised = true ∧
    (SetDCVoltageTask.smooth_set 1 0 1 (fun _ => false) 9 5 0).calls = [] ∧
    (SetDCVoltageTask.smooth_set 1 0 1 (fun _ => false) 9 5 0).dbWrites = [] := by
  refine ⟨by norm_num, by norm_num [abs_of_nonpos], ?_⟩
  exact C6_safe_delta_rejects_voltage_only 1 0 1 (fun _ => false) 9 5 0
    (by norm_num) (by norm_num [abs_of_nonpos])

/-- Counterexample to claim C6 as stated: the current variant issues a
hardware write for a target far from the current value without raising any
validation error, because `SetDCCurrentTask` has no `safe_delta`. -/
theorem C6_counterexample_current_variant_has_no_delta_check :
    |(0 : ℚ) - 5| > 1 ∧
    (SetDCCurrentTask.smooth_set 1 0 (fun _ => false) 20 5 0).raised = false ∧
    (SetDCCurrentTask.smooth_set 1 0 (fun _ => false) 20 5 0).calls ≠ [] := by
  refine ⟨by norm_num [abs_of_nonpos], ?_, ?_⟩ <;>
    norm_num +decide [SetDCCurrentTask.smooth_set, smoothCore, checkedDiv,
      stepOf, loopRun, finishRun, rampLoop, roundTo, rhe, abs_div, abs_neg,
      abs_of_nonneg, abs_of_nonpos]

/-- Claim C7 (amended): a call whose current value is within the epsilon
dead-band of the target issues zero setter calls, records `target_value`
in the database and completes — provided the validation checks pass (the
run does not raise); a raising no-op call is possible, see the
counterexample. -/
theorem C7_noop_within_epsilon_writes_nothing :
    (∀ (bs sm sd : ℚ) (stop : ℕ → Bool) (fuel : ℕ) (t c : ℚ),
      |c - t| < 1 / 10 ^ 12 →
      (SetDCVoltageTask.smooth_set bs sm sd stop fuel t c).raised = false →
      (SetDCVoltageTask.smooth_set bs sm sd stop fuel t c).calls = [] ∧
      (SetDCVoltageTask.smooth_set bs sm sd stop fuel t c).dbWrites = [t] ∧
      (SetDCVoltageTask.smooth_set bs sm sd stop fuel t c).completed = true) ∧
    (∀ (bs sm : ℚ) (stop : ℕ → Bool) (fuel : ℕ) (t c : ℚ),
      |c - t| < 1 / 10 ^ 9 →
      (SetDCCurrentTask.smooth_set bs sm stop fuel t c).raised = false →
      (SetDCCurrentTask.smooth_set bs sm stop fuel t c).calls = [] ∧
      (SetDCCurrentTask.smooth_set bs sm stop fuel t c).dbWrites = [t] ∧
      (SetDCCurrentTask.smooth_set bs sm stop fuel t c).completed = true) := by
  constructor
  · intro bs sm sd stop fuel t c heps hr
    rw [smooth_set_voltage_eq_core bs sm sd stop fuel t c hr]
    rw [smoothCore, if_pos heps]
    exact ⟨rfl, rfl, rfl⟩
  · intro bs sm stop fuel t c heps hr
    rw [smooth_set_current_eq_core bs sm stop fuel t c hr]
    rw [smoothCore, if_pos heps]
    exact ⟨rfl, rfl, rfl⟩

theorem C7_witness :
    |(3 : ℚ) - 3| < 1 / 10 ^ 12 ∧
    (SetDCVoltageTask.smooth_set 1 0 0 (fun _ => false) 4 3 3).calls = [] ∧
    (SetDCVoltageTask.smooth_set 1 0 0 (fun _ => false) 4 3 3).dbWrites = [3] ∧
    (SetDCVoltageTask.smooth_set 1 0 0 (fun _ => false) 4 3 3).completed
      = true := by
  have heps : |(3 : ℚ) - 3| < 1 / 10 ^ 12 := by norm_num
  have hr : (SetDCVoltageTask.smooth_set 1 0 0 (fun _ => false) 4 3 3).raised
      = false := by
    norm_num [SetDCVoltageTask.smooth_set, smoothCore]
  obtain ⟨h1, h2, h3⟩ :=
    C7_noop_within_epsilon_writes_nothing.1 1 0 0 (fun _ => false) 4 3 3 heps hr
  exact ⟨heps, h1, h2, h3⟩

/-- Counterexample to claim C7 as stated: a no-op request whose target
violates the `safe_max` ceiling raises instead of returning success, and
records nothing. -/
theorem C7_counterexample_noop_can_still_raise :
    |(2 : ℚ) - 2| < 1 / 10 ^ 12 ∧
    (SetDCVoltageTask.smooth_set 1 1 0 (fun _ => false) 5 2 2).raised = true ∧
    (SetDCVoltageTask.smooth_set 1 1 0 (fun _ => false) 5 2 2).dbWrites = [] ∧
    (SetDCVoltageTask.smooth_set 1 1 0 (fun _ => false) 5 2 2).completed
      = false := by
  refine ⟨by norm_num, ?_, ?_, ?_⟩ <;>
    norm_num [SetDCVoltageTask.smooth_set, raisedResult, abs_of_nonneg]

theorem rampLoop_stop_now (stop : ℕ → Bool) (p : ℕ) (value step : ℚ)
    (fuel : ℕ) (last : ℚ) (k : ℕ) (h : stop k = true) :
    rampLoop stop p value step fuel last k
      = ⟨[], last, k + 1, LoopExit.stopped⟩ := by
  cases fuel <;> simp [rampLoop, h]

/-- Claim C5 (confirmed): a run of the voltage `smooth_set` that passed
validation, did not exhaust the model fuel and did not reach the final
`setter(value)` branch (the last `is_set()` check observed the stop) makes
no further setter calls and writes to the database exactly the last value
passed to `setter` (the unchanged starting value when no call was made),
not `target_value`. -/
theorem C5_interrupted_ramp_records_last_setter_value
    (bs sm sd : ℚ) (stop : ℕ → Bool) (fuel : ℕ) (t c : ℚ)
    (hr : (SetDCVoltageTask.smooth_set bs sm sd stop fuel t c).raised = false)
    (hf : (SetDCVoltageTask.smooth_set bs sm sd stop fuel t c).fuelOut = false)
    (hc : (SetDCVoltageTask.smooth_set bs sm sd stop fuel t c).completed
      = false) :
    (SetDCVoltageTask.smooth_set bs sm sd stop fuel t c).dbWrites
      = [(SetDCVoltageTask.smooth_set bs sm sd stop fuel t c).calls.getLastD c]
      := by
  rw [smooth_set_voltage_eq_core bs sm sd stop fuel t c hr] at hf hc ⊢
  by_cases heps : |c - t| < 1 / 10 ^ 12
  · rw [smoothCore, if_pos heps] at hc
    simp at hc
  · by_cases hbs : bs = 0
    · rw [smoothCore, if_neg heps, if_pos hbs] at hc
      simp at hc
    · rw [smoothCore_eq bs 9 (1 / 10 ^ 12) stop fuel t c heps hbs] at hf hc ⊢
      set r := loopRun stop 9 t (stepOf bs ((t - c) / bs)) fuel c with hrdef
      unfold finishRun at hf hc ⊢
      by_cases hfo : r.exit = LoopExit.fuelOut
      · rw [if_pos hfo] at hf
        simp at hf
      · rw [if_neg hfo] at hf hc ⊢
        by_cases hst : stop r.tick
        · rw [if_pos hst]
          have hlast := loopRun_last_getLastD stop 9 t
            (stepOf bs ((t - c) / bs)) fuel c
          rw [← hrdef] at hlast
          simp [hlast]
        · rw [if_neg hst] at hc
          simp at hc

theorem C5_witness :
    (SetDCVoltageTask.smooth_set 1 0 0 (fun k => k != 0) 3 10 0).raised
      = false ∧
    (SetDCVoltageTask.smooth_set 1 0 0 (fun k => k != 0) 3 10 0).fuelOut
      = false ∧
    (SetDCVoltageTask.smooth_set 1 0 0 (fun k => k != 0) 3 10 0).completed
      = false ∧
    (SetDCVoltageTask.smooth_set 1 0 0 (fun k => k != 0) 3 10 0).dbWrites
      = [(SetDCVoltageTask.smooth_set 1 0 0 (fun k => k != 0) 3 10
          0).calls.getLastD 0] := by
  have e1 : (SetDCVoltageTask.smooth_set 1 0 0 (fun k => k != 0) 3 10
      0).raised = false := by
    norm_num +decide [SetDCVoltageTask.smooth_set, smoothCore, checkedDiv,
      stepOf, loopRun, finishRun, rampLoop, roundTo, rhe, abs_div, abs_neg,
      abs_of_nonneg, abs_of_nonpos]
  have e2 : (SetDCVoltageTask.smooth_set 1 0 0 (fun k => k != 0) 3 10
      0).fuelOut = false := by
    norm_num +decide [SetDCVoltageTask.smooth_set, smoothCore, checkedDiv,
      stepOf, loopRun, finishRun, rampLoop, roundTo, rhe, abs_div, abs_neg,
      abs_of_nonneg, abs_of_nonpos]
  have e3 : (SetDCVoltageTask.smooth_set 1 0 0 (fun k => k != 0) 3 10
      0).completed = false := by
    norm_num +decide [SetDCVoltageTask.smooth_set, smoothCore, checkedDiv,
      stepOf, loopRun, finishRun, rampLoop, roundTo, rhe, abs_div, abs_neg,
      abs_of_nonneg, abs_of_nonpos]
  exact ⟨e1, e2, e3,
    C5_interrupted_ramp_records_last_setter_value 1 0 0 (fun k => k != 0)
      3 10 0 e1 e2 e3⟩

theorem smoothCore_stop_preset (bs : ℚ) (p : ℕ) (eps : ℚ) (stop : ℕ → Bool)
    (fuel : ℕ) (t c : ℚ) (h0 : stop 0 = true)
    (hmono : ∀ i j, i ≤ j → stop i = true → stop j = true)
    (hbs : bs ≠ 0) (heps : ¬ |c - t| < eps) :
    smoothCore bs p eps stop fuel t c
      = ⟨[], [c], false, false, false, false⟩ := by
  rw [smoothCore_eq bs p eps stop fuel t c heps hbs]
  unfold loopRun
  by_cases hg : |t - c| > |stepOf bs ((t - c) / bs)|
  · rw [if_pos hg, rampLoop_stop_now _ _ _ _ _ _ _ h0]
    simp +decide [finishRun, hmono 0 1 (Nat.zero_le 1) h0]
  · rw [if_neg hg]
    simp +decide [finishRun, h0]

/-- Claim C10 (amended): with the stop signal already set at entry, a
nonzero step limit and a target outside the epsilon dead-band, a
`smooth_set` run that passes validation makes no setter call and records
the unchanged starting value; the zero-step-limit fast path instead writes
`target_value` regardless of the stop signal.  (A run that fails
validation raises and records nothing, see the counterexample.) -/
theorem C10_preset_stop_vs_zero_step_fast_path :
    (∀ (bs sm sd : ℚ) (stop : ℕ → Bool) (fuel : ℕ) (t c : ℚ),
      stop 0 = true → (∀ i j, i ≤ j → stop i = true → stop j = true) →
      bs ≠ 0 → ¬ |c - t| < 1 / 10 ^ 12 →
      (SetDCVoltageTask.smooth_set bs sm sd stop fuel t c).raised = false →
      (SetDCVoltageTask.smooth_set bs sm sd stop fuel t c).calls = [] ∧
      (SetDCVoltageTask.smooth_set bs sm sd stop fuel t c).dbWrites = [c]) ∧
    (∀ (bs sm : ℚ) (stop : ℕ → Bool) (fuel : ℕ) (t c : ℚ),
      stop 0 = true → (∀ i j, i ≤ j → stop i = true → stop j = true) →
      bs ≠ 0 → ¬ |c - t| < 1 / 10 ^ 9 →
      (SetDCCurrentTask.smooth_set bs sm stop fuel t c).raised = false →
      (SetDCCurrentTask.smooth_set bs sm stop fuel t c).calls = [] ∧
      (SetDCCurrentTask.smooth_set bs sm stop fuel t c).dbWrites = [c]) ∧
    (∀ (sm sd : ℚ) (stop : ℕ → Bool) (fuel : ℕ) (t c : ℚ),
      ¬ |c - t| < 1 / 10 ^ 12 →
      (SetDCVoltageTask.smooth_set 0 sm sd stop fuel t c).raised = false →
      (SetDCVoltageTask.smooth_set 0 sm sd stop fuel t c).calls = [t] ∧
      (SetDCVoltageTask.smooth_set 0 sm sd stop fuel t c).dbWrites = [t]) ∧
    (∀ (sm : ℚ) (stop : ℕ → Bool) (fuel : ℕ) (t c : ℚ),
      ¬ |c - t| < 1 / 10 ^ 9 →
      (SetDCCurrentTask.smooth_set 0 sm stop fuel t c).raised = false →
      (SetDCCurrentTask.smooth_set 0 sm stop fuel t c).calls = [t] ∧
      (SetDCCurrentTask.smooth_set 0 sm stop fuel t c).dbWrites = [t]) := by
  refine ⟨?_, ?_, ?_, ?_⟩
  · intro bs sm sd stop fuel t c h0 hmono hbs heps hr
    rw [smooth_set_voltage_eq_core bs sm sd stop fuel t c hr,
      smoothCore_stop_preset bs 9 (1 / 10 ^ 12) stop fuel t c h0 hmono hbs heps]
    exact ⟨rfl, rfl⟩
  · intro bs sm stop fuel t c h0 hmono hbs heps hr
    rw [smooth_set_current_eq_core bs sm stop fuel t c hr,
      smoothCore_stop_preset bs 6 (1 / 10 ^ 9) stop fuel t c h0 hmono hbs heps]
    exact ⟨rfl, rfl⟩
  · intro sm sd stop fuel t c heps hr
    rw [smooth_set_voltage_eq_core 0 sm sd stop fuel t c hr, smoothCore,
      if_neg heps, if_pos rfl]
    exact ⟨rfl, rfl⟩
  · intro sm stop fuel t c heps hr
    rw [smooth_set_current_eq_core 0 sm stop fuel t c hr, smoothCore,
      if_neg heps, if_pos rfl]
    exact ⟨rfl, rfl⟩

theorem C10_witness :
    ((SetDCVoltageTask.smooth_set 1 0 0 (fun _ => true) 2 10 0).calls = [] ∧
     (SetDCVoltageTask.smooth_set 1 0 0 (fun _ => true) 2 10 0).dbWrites
       = [0]) ∧
    ((SetDCVoltageTask.smooth_set 0 0 0 (fun _ => true) 2 7 0).calls = [7] ∧
     (SetDCVoltageTask.smooth_set 0 0 0 (fun _ => true) 2 7 0).dbWrites
       = [7]) := by
  constructor
  · exact C10_preset_stop_vs_zero_step_fast_path.1 1 0 0 (fun _ => true) 2 10 0
      rfl (fun _ _ _ _ => rfl) (by norm_num)
      (by norm_num [abs_of_nonpos])
      (by norm_num +decide [SetDCVoltageTask.smooth_set, smoothCore,
        checkedDiv, stepOf, loopRun, finishRun, rampLoop, roundTo, rhe,
        abs_div, abs_neg, abs_of_nonneg, abs_of_nonpos])
  · exact C10_preset_stop_vs_zero_step_fast_path.2.2.1 0 0 (fun _ => true) 2 7 0
      (by norm_num [abs_of_nonpos])
      (by norm_num +decide [SetDCVoltageTask.smooth_set, smoothCore,
        checkedDiv, stepOf, loopRun, finishRun, rampLoop, roundTo, rhe,
        abs_div, abs_neg, abs_of_nonneg, abs_of_nonpos])

/-- Counterexample to claim C10 as stated: with the stop signal set at
entry, a nonzero step limit and a far target, a run whose target violates
`safe_max` raises instead, and the database records nothing — in
particular not the unchanged `current_value`. -/
theorem C10_counterexample_validation_precedes_stop_check :
    ((fun _ : ℕ => true) 0 = true ∧ (1 : ℚ) ≠ 0 ∧
      ¬ |(0 : ℚ) - 10| < 1 / 10 ^ 12) ∧
    (SetDCVoltageTask.smooth_set 1 5 0 (fun _ => true) 3 10 0).calls = [] ∧
    (SetDCVoltageTask.smooth_set 1 5 0 (fun _ => true) 3 10 0).dbWrites = [] ∧
    (SetDCVoltageTask.smooth_set 1 5 0 (fun _ => true) 3 10 0).dbWrites
      ≠ [(0 : ℚ)] := by
  refine ⟨⟨rfl, by norm_num, by norm_num [abs_of_nonpos]⟩, ?_, ?_, ?_⟩ <;>
    norm_num [SetDCVoltageTask.smooth_set, raisedResult, abs_of_nonneg]

/-- With the stop signal never set, a nonzero `back_step` and starting
value both on the rounding grid, and a run that does not exhaust its fuel,
the stepping body only produces setter values between the starting value
and the target, with non-increasing distance to the target, and its last
setter call (if any) is exactly the target. -/
theorem smoothCore_noStop_main (bs : ℚ) (p : ℕ) (eps : ℚ) (stop : ℕ → Bool)
    (fuel : ℕ) (t c : ℚ)
    (hstop : ∀ n, stop n = false) (hbs : bs ≠ 0) (heps : 0 < eps)
    (hgc : onGrid p c) (hgb : onGrid p bs)
    (hf : (smoothCore bs p eps stop fuel t c).fuelOut = false) :
    (∀ x ∈ (smoothCore bs p eps stop fuel t c).calls,
        min c t ≤ x ∧ x ≤ max c t) ∧
    List.Chain' (fun a a' => |t - a'| ≤ |t - a|)
      (c :: (smoothCore bs p eps stop fuel t c).calls) ∧
    ((smoothCore bs p eps stop fuel t c).calls = [] ∨
      (smoothCore bs p eps stop fuel t c).calls.getLast? = some t) := by
  by_cases hd : |c - t| < eps
  · rw [smoothCore, if_pos hd]
    exact ⟨by simp, by simp, Or.inl rfl⟩
  · have hne : t ≠ c := by
      intro hEq
      apply hd
      rw [hEq]
      simpa using heps
    rw [smoothCore_eq bs p eps stop fuel t c hd hbs] at hf ⊢
    set step := stepOf bs ((t - c) / bs) with hstepdef
    set r := loopRun stop p t step fuel c with hrdef
    have hdir : 0 < (t - c) * step := by
      rw [hstepdef]
      exact stepOf_dir hbs hne
    have hgs : onGrid p step := by
      rw [hstepdef]
      exact stepOf_onGrid _ hgb
    have hmain := loopRun_noStop stop p t step fuel c hstop hgs hgc hdir
    rw [← hrdef] at hmain
    unfold finishRun at hf ⊢
    rcases hmain with hfo | ⟨hbr, hchain, helem⟩
    · rw [if_pos hfo] at hf
      simp at hf
    · have hnfo : ¬ r.exit = LoopExit.fuelOut := by
        rw [hbr]
        decide
      rw [if_neg hnfo] at hf ⊢
      have hnst : ¬ stop r.tick = true := by simp [hstop r.tick]
      rw [if_neg hnst] at hf ⊢
      refine ⟨?_, ?_, ?_⟩
      · intro x hx
        simp only [List.mem_append, List.mem_singleton] at hx
        rcases hx with hx | rfl
        · exact between_of_facts hdir (helem x hx).1 (helem x hx).2
        · exact ⟨min_le_right _ _, le_max_right _ _⟩
      · show List.Chain' _ ((c :: r.calls) ++ [t])
        refine List.chain'_append.mpr ⟨hchain, List.chain'_singleton _, ?_⟩
        intro x hx y hy
        simp only [List.head?_cons, Option.mem_some_iff] at hy
        subst hy
        simp [abs_nonneg]
      · right
        show (r.calls ++ [t]).getLast? = some t
        exact List.getLast?_concat _

/-- Claim C1 (amended): for both `smooth_set` variants, when the stop
signal is never set, the step limit is nonzero, the starting value and
the step limit are integer multiples of the rounding granularity (`1e-9`
for voltage, `1e-6` for current), and the run passes validation and does
not exhaust its fuel: every setter value lies between the starting value
and the target, the distance to the target never increases from one
setter call to the next, and the final setter call — whenever any call is
made — is exactly `target_value`, even when the distance is not an
integer multiple of the step limit.  Without the granularity proviso an
intermediate value can overshoot the target (see the counterexample). -/
theorem C1_monotone_advance_and_exact_landing :
    (∀ (bs sm sd : ℚ) (stop : ℕ → Bool) (fuel : ℕ) (t c : ℚ) (m b : ℤ),
      (∀ n, stop n = false) → bs ≠ 0 →
      c = (m : ℚ) / 10 ^ 9 → bs = (b : ℚ) / 10 ^ 9 →
      (SetDCVoltageTask.smooth_set bs sm sd stop fuel t c).raised = false →
      (SetDCVoltageTask.smooth_set bs sm sd stop fuel t c).fuelOut = false →
      ((∀ x ∈ (SetDCVoltageTask.smooth_set bs sm sd stop fuel t c).calls,
          min c t ≤ x ∧ x ≤ max c t) ∧
        List.Chain' (fun a a' => |t - a'| ≤ |t - a|)
          (c :: (SetDCVoltageTask.smooth_set bs sm sd stop fuel t c).calls) ∧
        ((SetDCVoltageTask.smooth_set bs sm sd stop fuel t c).calls = [] ∨
          (SetDCVoltageTask.smooth_set bs sm sd stop fuel t
            c).calls.getLast? = some t))) ∧
    (∀ (bs sm : ℚ) (stop : ℕ → Bool) (fuel : ℕ) (t c : ℚ) (m b : ℤ),
      (∀ n, stop n = false) → bs ≠ 0 →
      c = (m : ℚ) / 10 ^ 6 → bs = (b : ℚ) / 10 ^ 6 →
      (SetDCCurrentTask.smooth_set bs sm stop fuel t c).raised = false →
      (SetDCCurrentTask.smooth_set bs sm stop fuel t c).fuelOut = false →
      ((∀ x ∈ (SetDCCurrentTask.smooth_set bs sm stop fuel t c).calls,
          min c t ≤ x ∧ x ≤ max c t) ∧
        List.Chain' (fun a a' => |t - a'| ≤ |t - a|)
          (c :: (SetDCCurrentTask.smooth_set bs sm stop fuel t c).calls) ∧
        ((SetDCCurrentTask.smooth_set bs sm stop fuel t c).calls = [] ∨
          (SetDCCurrentTask.smooth_set bs sm stop fuel t
            c).calls.getLast? = some t))) := by
  constructor
  · intro bs sm sd stop fuel t c m b hstop hbs hc hb hr hf
    rw [smooth_set_voltage_eq_core bs sm sd stop fuel t c hr] at hf ⊢
    exact smoothCore_noStop_main bs 9 (1 / 10 ^ 12) stop fuel t c hstop hbs
      (by norm_num) ⟨m, hc⟩ ⟨b, hb⟩ hf
  · intro bs sm stop fuel t c m b hstop hbs hc hb hr hf
    rw [smooth_set_current_eq_core bs sm stop fuel t c hr] at hf ⊢
    exact smoothCore_noStop_main bs 6 (1 / 10 ^ 9) stop fuel t c hstop hbs
      (by norm_num) ⟨m, hc⟩ ⟨b, hb⟩ hf

theorem C1_witness :
    (∀ x ∈ (SetDCVoltageTask.smooth_set 1 0 0 (fun _ => false) 10
        (5 / 2) 0).calls, min (0 : ℚ) (5 / 2) ≤ x ∧ x ≤ max (0 : ℚ) (5 / 2)) ∧
    List.Chain' (fun a a' => |5 / 2 - a'| ≤ |5 / 2 - a|)
      (0 :: (SetDCVoltageTask.smooth_set 1 0 0 (fun _ => false) 10
        (5 / 2) 0).calls) ∧
    ((SetDCVoltageTask.smooth_set 1 0 0 (fun _ => false) 10 (5 / 2) 0).calls
        = [] ∨
      (SetDCVoltageTask.smooth_set 1 0 0 (fun _ => false) 10
        (5 / 2) 0).calls.getLast? = some (5 / 2)) := by
  exact C1_monotone_advance_and_exact_landing.1 1 0 0 (fun _ => false) 10
    (5 / 2) 0 0 (10 ^ 9) (fun _ => rfl) (by norm_num) (by norm_num)
    (by push_cast; norm_num)
    (by norm_num +decide [SetDCVoltageTask.smooth_set, smoothCore, checkedDiv,
      stepOf, loopRun, finishRun, rampLoop, roundTo, rhe, abs_div, abs_neg,
      abs_of_nonneg, abs_of_nonpos])
    (by norm_num +decide [SetDCVoltageTask.smooth_set, smoothCore, checkedDiv,
      stepOf, loopRun, finishRun, rampLoop, roundTo, rhe, abs_div, abs_neg,
      abs_of_nonneg, abs_of_nonpos])

/-- Counterexample to claim C1 as stated: with `back_step = 1.7e-9` and
target `1.75e-9` from a start of `0`, the first rounded step is `2e-9`,
strictly beyond the target, even though the stop signal is never set and
the run lands exactly on the target afterwards. -/
theorem C1_counterexample_rounded_step_overshoots_target :
    ((17 / 10 ^ 10 : ℚ) ≠ 0 ∧ (∀ n, (fun _ : ℕ => false) n = false)) ∧
    (SetDCVoltageTask.smooth_set (17 / 10 ^ 10) 0 0 (fun _ => false) 5
        (7 / (4 * 10 ^ 9)) 0).calls = [2 / 10 ^ 9, 7 / (4 * 10 ^ 9)] ∧
    max (0 : ℚ) (7 / (4 * 10 ^ 9)) < 2 / 10 ^ 9 := by
  refine ⟨⟨by norm_num, fun _ => rfl⟩, ?_, by norm_num⟩
  norm_num +decide [SetDCVoltageTask.smooth_set, smoothCore, checkedDiv,
    stepOf, loopRun, finishRun, rampLoop, roundTo, rhe, abs_div, abs_neg,
    abs_of_nonneg, abs_of_nonpos]

/-- With a positive `back_step` and starting value both on the rounding
grid and a monotone stop signal, every pair of consecutive setter values
of the stepping body (taking the starting value as predecessor of the
first call) differs by at most `back_step`. -/
theorem smoothCore_step_bound (bs : ℚ) (p : ℕ) (eps : ℚ) (stop : ℕ → Bool)
    (fuel : ℕ) (t c : ℚ) (hbs : 0 < bs)
    (hmono : ∀ i j, i ≤ j → stop i = true → stop j = true)
    (hgc : onGrid p c) (hgb : onGrid p bs) :
    List.Chain' (fun a a' => |a' - a| ≤ bs)
      (c :: (smoothCore bs p eps stop fuel t c).calls) := by
  by_cases hd : |c - t| < eps
  · rw [smoothCore, if_pos hd]
    simp
  · rw [smoothCore_eq bs p eps stop fuel t c hd hbs.ne']
    set step := stepOf bs ((t - c) / bs) with hstepdef
    set r := loopRun stop p t step fuel c with hrdef
    have habs : |step| = bs := by
      rw [hstepdef, stepOf_abs]
      exact abs_of_pos hbs
    have hgs : onGrid p step := by
      rw [hstepdef]
      exact stepOf_onGrid _ hgb
    have hchain0 := loopRun_chain_grid stop p t step fuel c hgs hgc
    rw [← hrdef] at hchain0
    have hchain : List.Chain' (fun a a' => |a' - a| ≤ bs) (c :: r.calls) := by
      refine List.Chain'.imp ?_ hchain0
      intro a a' h
      rw [h]
      simp [habs]
    unfold finishRun
    by_cases hfo : r.exit = LoopExit.fuelOut
    · rw [if_pos hfo]
      exact hchain
    · rw [if_neg hfo]
      by_cases hst : stop r.tick = true
      · rw [if_pos hst]
        exact hchain
      · rw [if_neg hst]
        have hbr : r.exit = LoopExit.broke := by
          cases hex : r.exit with
          | stopped =>
            obtain ⟨j, hjt, hjs⟩ := loopRun_stopped_tick stop p t step fuel c
              (hrdef ▸ hex)
            rw [← hrdef] at hjt
            exact absurd (hmono j r.tick (by omega) hjs) hst
          | broke => rfl
          | fuelOut => exact absurd hex hfo
        have hlast := loopRun_broke_last stop p t step fuel c (hrdef ▸ hbr)
        rw [← hrdef] at hlast
        have hgetD := loopRun_last_getLastD stop p t step fuel c
        rw [← hrdef] at hgetD
        show List.Chain' _ ((c :: r.calls) ++ [t])
        refine List.chain'_append.mpr ⟨hchain, List.chain'_singleton _, ?_⟩
        intro x hx y hy
        simp only [List.head?_cons, Option.mem_some_iff] at hy
        subst hy
        rw [getLast?_cons_getLastD, Option.mem_some_iff] at hx
        have hxlast : x = r.last := by
          rw [hgetD, hx]
        rw [hxlast, ← habs]
        exact not_lt.mp hlast

/-- Claim C4 (amended): for both `smooth_set` variants with a positive
step limit `s`, a monotone stop signal, and the starting value and `s`
both integer multiples of the rounding granularity (`1e-9` for voltage,
`1e-6` for current), every pair of consecutive setter calls — the first
call paired with the starting value, and the final snap-to-target call
paired with the last intermediate value — differs by at most `s`.
Without the granularity proviso the decimal rounding can make a step
exceed `s` by up to half a granule (see the counterexample). -/
theorem C4_consecutive_setter_calls_bounded_by_step :
    (∀ (bs sm sd : ℚ) (stop : ℕ → Bool) (fuel : ℕ) (t c : ℚ) (m b : ℤ),
      0 < bs → (∀ i j, i ≤ j → stop i = true → stop j = true) →
      c = (m : ℚ) / 10 ^ 9 → bs = (b : ℚ) / 10 ^ 9 →
      List.Chain' (fun a a' => |a' - a| ≤ bs)
        (c :: (SetDCVoltageTask.smooth_set bs sm sd stop fuel t c).calls)) ∧
    (∀ (bs sm : ℚ) (stop : ℕ → Bool) (fuel : ℕ) (t c : ℚ) (m b : ℤ),
      0 < bs → (∀ i j, i ≤ j → stop i = true → stop j = true) →
      c = (m : ℚ) / 10 ^ 6 → bs = (b : ℚ) / 10 ^ 6 →
      List.Chain' (fun a a' => |a' - a| ≤ bs)
        (c :: (SetDCCurrentTask.smooth_set bs sm stop fuel t c).calls)) := by
  constructor
  · intro bs sm sd stop fuel t c m b hbs hmono hc hb
    unfold SetDCVoltageTask.smooth_set
    split_ifs
    · simp [raisedResult]
    · simp [raisedResult]
    · exact smoothCore_step_bound bs 9 (1 / 10 ^ 12) stop fuel t c hbs hmono
        ⟨m, hc⟩ ⟨b, hb⟩
  · intro bs sm stop fuel t c m b hbs hmono hc hb
    unfold SetDCCurrentTask.smooth_set
    split_ifs
    · simp [raisedResult]
    · exact smoothCore_step_bound bs 6 (1 / 10 ^ 9) stop fuel t c hbs hmono
        ⟨m, hc⟩ ⟨b, hb⟩

theorem C4_witness :
    List.Chain' (fun a a' => |a' - a| ≤ (1 : ℚ))
      (0 :: (SetDCVoltageTask.smooth_set 1 0 0 (fun _ => false) 10
        (5 / 2) 0).calls) := by
  exact C4_consecutive_setter_calls_bounded_by_step.1 1 0 0 (fun _ => false)
    10 (5 / 2) 0 0 (10 ^ 9) (by norm_num) (fun _ _ _ h => h) (by norm_num)
    (by push_cast; norm_num)

/-- Counterexample to claim C4 as stated: with `back_step = 1.7e-9` from a
start of `0` towards `3e-9`, the first rounded setter value is `2e-9`,
which differs from the starting value by `2e-9 > 1.7e-9`. -/
theorem C4_counterexample_rounded_step_exceeds_bound :
    (0 : ℚ) < 17 / 10 ^ 10 ∧
    (SetDCVoltageTask.smooth_set (17 / 10 ^ 10) 0 0 (fun _ => false) 5
        (3 / 10 ^ 9) 0).calls = [2 / 10 ^ 9, 3 / 10 ^ 9] ∧
    ¬ List.Chain' (fun a a' => |a' - a| ≤ (17 / 10 ^ 10 : ℚ))
        (0 :: (SetDCVoltageTask.smooth_set (17 / 10 ^ 10) 0 0 (fun _ => false) 5
          (3 / 10 ^ 9) 0).calls) := by
  have hcalls : (SetDCVoltageTask.smooth_set (17 / 10 ^ 10) 0 0 (fun _ => false)
      5 (3 / 10 ^ 9) 0).calls = [2 / 10 ^ 9, 3 / 10 ^ 9] := by
    norm_num +decide [SetDCVoltageTask.smooth_set, smoothCore, checkedDiv,
      stepOf, loopRun, finishRun, rampLoop, roundTo, rhe, abs_div, abs_neg,
      abs_of_nonneg, abs_of_nonpos]
  refine ⟨by norm_num, hcalls, ?_⟩
  rw [hcalls]
  intro h
  have h1 := (List.chain'_cons.mp h).1
  norm_num [abs_of_nonneg] at h1

/-! ### ApplyMagFieldTask.perform (apply_mag_field_task.py) -/

/-- Outcome of waiting on an instrument job. -/
inductive JobOutcome where
  | completed
  | interrupted
  | timedOut
deriving DecidableEq, Repr

/-- Observable actions of `ApplyMagFieldTask.perform`, in program order. -/
inductive MagEv where
  | persistSweep
  | heaterSet (st : Bool)
  | sweepStart (target rate : ℚ)
  | timeoutRecovery
  | dbWriteField (v : ℚ)
  | shouldStopSet
  | jobCancel
deriving DecidableEq, Repr

/-- How a `perform` call ended. -/
inductive MagResult where
  | retNone
  | retFalse
  | raisedValueError
  | raisedTimeout
deriving DecidableEq, Repr

/-- Driver replies and job outcomes consumed by one `perform` run. -/
structure MagEnv where
  heater_on : Bool
  persistJob : JobOutcome
  persistent_field : ℚ
  output_fluctuations : ℚ
  sweepJob : JobOutcome
  persistent_at_timeout : ℚ
  auto_stop_heater : Bool
  fast_sweep_rate : ℚ
  zeroJob : JobOutcome
deriving DecidableEq, Repr

/-- Modelled from the spec: `InstrJob.wait_for_completion`
(driver_tools.py, which is not under src/) returns `True` on normal
completion and `False` on cooperative interruption; on a timeout it first
runs the job's timeout handler (recovery) and then raises
`InstrTimeoutError` — modelled as the `timeoutRecovery` event followed by
a `none` result standing for the raised error. -/
def wait_for_completion (o : JobOutcome) : List MagEv × Option Bool :=
  match o with
  | JobOutcome.completed => ([], some true)
  | JobOutcome.interrupted => ([], some false)
  | JobOutcome.timedOut => ([MagEv.timeoutRecovery], none)

/-- `ApplyMagFieldTask.perform` (apply_mag_field_task.py lines 49-106) as
a function of the target field, the task's configured rate and the driver
environment, producing the ordered observable actions and how the call
ended.  Only the field sweep's wait (lines 79-90) is wrapped in
`try/except InstrTimeoutError`; the two other waits propagate a timeout. -/
def ApplyMagFieldTask.perform (target rate : ℚ) (env : MagEnv) :
    List MagEv × MagResult :=
  let pre : List MagEv × Option MagResult :=
    if env.heater_on then ([], none)
    else
      match wait_for_completion env.persistJob with
      | (evs, some true) =>
        (MagEv.persistSweep :: evs ++ [MagEv.heaterSet true], none)
      | (evs, some false) =>
        (MagEv.persistSweep :: evs, some MagResult.retFalse)
      | (evs, none) =>
        (MagEv.persistSweep :: evs, some MagResult.raisedTimeout)
  match pre with
  | (evs, some rr) => (evs, rr)
  | (evs0, none) =>
    let swp : List MagEv × Option MagResult × Bool :=
      if |env.persistent_field - target| > env.output_fluctuations then
        match wait_for_completion env.sweepJob with
        | (evs, some b) => (MagEv.sweepStart target rate :: evs, none, b)
        | (evs, none) =>
          (MagEv.sweepStart target rate :: evs
             ++ [MagEv.dbWriteField env.persistent_at_timeout,
                 MagEv.shouldStopSet],
           some MagResult.raisedValueError, false)
      else ([], none, true)
    match swp with
    | (evs1, some rr, _) => (evs0 ++ evs1, rr)
    | (evs1, none, normal_end) =>
      if normal_end = false then
        (evs0 ++ evs1 ++ [MagEv.jobCancel], MagResult.retNone)
      else
        let post : List MagEv × Option MagResult :=
          if env.auto_stop_heater then
            match wait_for_completion env.zeroJob with
            | (evs, some _) =>
              (MagEv.heaterSet false
                 :: MagEv.sweepStart 0 env.fast_sweep_rate :: evs, none)
            | (evs, none) =>
              (MagEv.heaterSet false
                 :: MagEv.sweepStart 0 env.fast_sweep_rate :: evs,
               some MagResult.raisedTimeout)
          else ([], none)
        match post with
        | (evs2, some rr) => (evs0 ++ evs1 ++ evs2, rr)
        | (evs2, none) =>
          (evs0 ++ evs1 ++ evs2 ++ [MagEv.dbWriteField target],
           MagResult.retNone)

/-- Claim C3 (confirmed): when the field sweep's wait times out (switch
heater already on, target beyond the fluctuation band so the sweep runs),
`perform` runs the job's timeout recovery, then writes the freshly read
persistent field value to the 'field' database entry, sets the global
stop flag and raises a `ValueError` — it does not return a plain `False`.
-/
theorem C3_sweep_timeout_recovers_writes_field_then_raises
    (target rate : ℚ) (env : MagEnv)
    (hh : env.heater_on = true)
    (hgap : |env.persistent_field - target| > env.output_fluctuations)
    (hto : env.sweepJob = JobOutcome.timedOut) :
    ApplyMagFieldTask.perform target rate env
      = ([MagEv.sweepStart target rate, MagEv.timeoutRecovery,
          MagEv.dbWriteField env.persistent_at_timeout, MagEv.shouldStopSet],
         MagResult.raisedValueError) ∧
    (ApplyMagFieldTask.perform target rate env).2 ≠ MagResult.retFalse := by
  have heq : ApplyMagFieldTask.perform target rate env
      = ([MagEv.sweepStart target rate, MagEv.timeoutRecovery,
          MagEv.dbWriteField env.persistent_at_timeout, MagEv.shouldStopSet],
         MagResult.raisedValueError) := by
    unfold ApplyMagFieldTask.perform
    rw [hh, hto, if_pos hgap]
    simp [wait_for_completion]
  refine ⟨heq, ?_⟩
  rw [heq]
  simp

theorem C3_witness :
    ApplyMagFieldTask.perform 3 (1 / 2)
        ⟨true, JobOutcome.completed, 5, 1 / 1000, JobOutcome.timedOut,
          48 / 10, true, 1, JobOutcome.completed⟩
      = ([MagEv.sweepStart 3 (1 / 2), MagEv.timeoutRecovery,
          MagEv.dbWriteField (48 / 10), MagEv.shouldStopSet],
         MagResult.raisedValueError) := by
  exact (C3_sweep_timeout_recovers_writes_field_then_raises 3 (1 / 2)
    ⟨true, JobOutcome.completed, 5, 1 / 1000, JobOutcome.timedOut,
      48 / 10, true, 1, JobOutcome.completed⟩
    rfl (by norm_num [abs_of_nonneg]) rfl).1

/-! ### CS4 magnet power supply driver (cryomagnetics_cs4.py) -/

/-- Commands written to the CS4 power supply, as structured data. -/
inductive CS4Cmd where
  | rate (slot : ℕ) (val : ℚ)
  | ulim (t : ℚ)
  | sweep (mode : String)
  | pshtr (st : String)
deriving DecidableEq, Repr

/-- Device-visible state of the CS4 magnet power supply and the log of
commands written so far. -/
structure CS4State where
  activity : String
  heater_state : String
  target_field : ℚ
  field_sweep_rate : ℚ
  fast_sweep_rate : ℚ
  output_field : ℚ
  output_fluctuations : ℚ
  field_current_ratio : ℚ
  writes : List CS4Cmd
deriving DecidableEq, Repr

/-- `_ACTIVITY_DICT.get(value, None)` (cryomagnetics_cs4.py lines 24-25). -/
def CS4.activity_dict (value : String) : Option String :=
  if value = "To set point" then some ("UP")
  else if value = "Hold" then some ("PAUSE")
  else none

/-- The `activity` property setter (cryomagnetics_cs4.py lines 312-328):
translate the request through `_ACTIVITY_DICT`, append the FAST/SLOW
suffix for sweep requests depending on the switch heater, and write the
SWEEP command; an unknown request fails (`none`). -/
def CS4.set_activity (s : CS4State) (value : String) : Option CS4State :=
  match CS4.activity_dict value with
  | none => none
  | some par =>
    let par := if par ≠ "PAUSE" then
        (if s.heater_state = "Off" then par ++ " FAST" else par ++ " SLOW")
      else par
    some { s with activity := value,
                  writes := s.writes ++ [CS4Cmd.sweep par] }

/-- The `heater_state` property setter (lines 211-219): writes `PSHTR On`
or `PSHTR Off`; any other request is silently ignored. -/
def CS4.set_heater_state (s : CS4State) (st : String) : CS4State :=
  if st = "On" ∨ st = "Off" then
    { s with heater_state := st, writes := s.writes ++ [CS4Cmd.pshtr st] }
  else s

/-- The `target_field` property setter (lines 278-288): writes `ULIM`. -/
def CS4.set_target_field (s : CS4State) (t : ℚ) : CS4State :=
  { s with target_field := t, writes := s.writes ++ [CS4Cmd.ulim t] }

/-- The `field_sweep_rate` property setter (lines 234-242): converts the
rate from T/min to A/s and writes `RATE 0`. -/
def CS4.set_field_sweep_rate (s : CS4State) (r : ℚ) : CS4State :=
  { s with field_sweep_rate := r,
           writes := s.writes
             ++ [CS4Cmd.rate 0 (r / (60 * s.field_current_ratio))] }

/-- `CS4.stop_sweep` (lines 170-178): put the supply activity on Hold. -/
def CS4.stop_sweep (s : CS4State) : Option CS4State :=
  CS4.set_activity s "Hold"

/-- `CS4.stop_sweep_safe` (lines 180-190): put the supply activity on
Hold, then turn the switch heater off (the trailing `sleep` has no device
effect). -/
def CS4.stop_sweep_safe (s : CS4State) : Option CS4State :=
  (CS4.set_activity s "Hold").map (fun s1 => CS4.set_heater_state s1 "Off")

/-- `CS4.is_target_reached` (lines 122-130). -/
def CS4.is_target_reached (fluct : ℚ) (s : CS4State) : Bool :=
  |s.output_field - s.target_field| < fluct

/-- The job constructed by `sweep_to_field` (an `InstrJob` of
driver_tools.py, which is not under src/): we record the data it is
constructed from — completion predicate, expected wait, cancel and
timeout callbacks. -/
structure InstrJob where
  condition : CS4State → Bool
  wait : ℚ
  cancel : CS4State → Option CS4State
  timeout_handler : CS4State → Option CS4State

/-- `CS4.sweep_to_field` (lines 143-168): optionally set the sweep rate,
choose the effective rate from the switch heater state, set the target
field, pause then start the sweep, and hand back a job whose cancel
callback is `stop_sweep` and whose timeout handler is `stop_sweep_safe`. -/
def CS4.sweep_to_field (s : CS4State) (value : ℚ) (rate : Option ℚ) :
    Option (CS4State × InstrJob) :=
  let s := match rate with
    | some r => CS4.set_field_sweep_rate s r
    | none => s
  let rate := if s.heater_state = "On" then s.field_sweep_rate
    else s.fast_sweep_rate
  let s := CS4.set_target_field s value
  (CS4.set_activity s "Hold").bind fun s1 =>
    (CS4.set_activity s1 "To set point").map fun s2 =>
      (s2, ⟨CS4.is_target_reached s2.output_fluctuations,
            60 * |s2.output_field - value| / rate,
            CS4.stop_sweep, CS4.stop_sweep_safe⟩)

/-- Invoking `stop_sweep_safe` on any device state succeeds, leaves the
activity on Hold and the switch heater off, and writes exactly
`SWEEP PAUSE` followed by `PSHTR Off`. -/
theorem stop_sweep_safe_spec (t : CS4State) :
    ∃ t', CS4.stop_sweep_safe t = some t' ∧ t'.activity = "Hold" ∧
      t'.heater_state = "Off" ∧
      t'.writes = t.writes ++ [CS4Cmd.sweep ("PAUSE"), CS4Cmd.pshtr ("Off")]
      := by
  refine ⟨_, rfl, ?_, ?_, ?_⟩ <;>
    simp [CS4.stop_sweep_safe, CS4.set_activity, CS4.activity_dict,
      CS4.set_heater_state]

/-- Claim C8 (confirmed): `CS4.sweep_to_field` always returns a job whose
timeout handler is `stop_sweep_safe`, and invoking that handler puts the
supply activity on Hold and turns the switch heater off, so a timed-out
sweep leaves the switch open and the field held rather than ramping
unobserved. -/
theorem C8_sweep_job_timeout_handler_holds_and_opens_heater
    (s : CS4State) (value : ℚ) (rate : Option ℚ) :
    ∃ s' job, CS4.sweep_to_field s value rate = some (s', job) ∧
      job.timeout_handler = CS4.stop_sweep_safe ∧
      ∀ t, ∃ t', job.timeout_handler t = some t' ∧
        t'.activity = "Hold" ∧ t'.heater_state = "Off" ∧
        t'.writes = t.writes
          ++ [CS4Cmd.sweep ("PAUSE"), CS4Cmd.pshtr ("Off")] := by
  rcases rate with _ | r <;>
    exact ⟨_, _, rfl, rfl, stop_sweep_safe_spec⟩
